import Mathlib

/-!
Shallow embedding of the lockfree-ring-buffer library: `include/lfrb/defs.hpp` and
`include/lfrb/ring_buffer.hpp`.

* `size_t` is the 64-bit unsigned type: values are natural numbers below `2 ^ 64`, and
  every operation of the source that can leave that range is reduced modulo `2 ^ 64`
  explicitly.
* The atomic cursors `head_` and `tail_` are plain fields: the development covers
  single-threaded executions, where every atomic load returns the last stored value.
* `std::vector<T> buffer_` is a `List T`; an access outside the vector (undefined
  behaviour in the source language) makes an operation return `none`.
* Creating the vector can fail inside the standard library: `std::length_error` above
  `max_size()`, `std::bad_alloc` when the heap cannot provide the elements. Both limits are
  parameters of the constructor (`VectorLimits`).
* `push`, `pop` and `size_approx` have empty bodies in `ring_buffer.hpp`; their definitions
  here follow sections 4.3 to 4.5 of the specification, over the data members and the
  constructor of the source. The cursors are the counters of section 3 of the
  specification: they count the items ever pushed and popped, and their increment is not
  reduced modulo `2 ^ 64`.
-/

namespace lfrb

deriving instance DecidableEq for Except

/-! ## defs.hpp -/

/-- `constexpr size_t next_power_of_two(size_t x)`: decrement, smear the highest set bit into
every lower position with shifts 1, 2, 4, 8, 16, 32, then increment. The argument is a
`size_t`, so callers pass `x < 2 ^ 64`; the decrement cannot wrap because `x ≠ 0` on that
path, the final `++x` can. -/
def next_power_of_two (x : Nat) : Nat :=
  if x = 0 then 1
  else
    let x := x - 1
    let x := x ||| (x >>> 1)
    let x := x ||| (x >>> 2)
    let x := x ||| (x >>> 4)
    let x := x ||| (x >>> 8)
    let x := x ||| (x >>> 16)
    let x := x ||| (x >>> 32)
    (x + 1) % 2 ^ 64

/-! ## ring_buffer.hpp -/

/-- The exceptions that can leave the constructor: `std::invalid_argument` from its body,
`std::length_error` and `std::bad_alloc` from the initialiser of `buffer_`. -/
inductive ConstructError where
  | invalid_argument
  | length_error
  | bad_alloc
  deriving DecidableEq, Repr

/-- What the standard library decides when `std::vector<T>(n)` is created: `max_size` is
the value of `std::vector<T>::max_size()` (at most `PTRDIFF_MAX / sizeof(T)`, so below
`2 ^ 63`), and `available` is the largest number of elements the allocator can provide at
the time of the call. -/
structure VectorLimits where
  max_size : Nat
  available : Nat
  deriving DecidableEq, Repr

/-- Limits used in the worked instances: `max_size()` of a vector of 8-byte elements and a
heap with room for `2 ^ 20` of them. -/
def demoLimits : VectorLimits := { max_size := 2 ^ 60 - 1, available := 2 ^ 20 }

/-- The data members of `RingBuffer<T>`. -/
structure RingBuffer (T : Type) where
  head_ : Nat
  tail_ : Nat
  capacity_ : Nat
  mask_ : Nat
  buffer_ : List T
  deriving DecidableEq, Repr

variable {T : Type}

/-- `explicit RingBuffer(size_t capacity)`: the member initialisers run first
(`capacity_`, then `mask_ = capacity_ - 1` in `size_t` arithmetic, then `buffer_(capacity_)`,
a vector of `capacity_` value-initialised elements, which throws `std::length_error` when
`capacity_` exceeds `max_size()` and `std::bad_alloc` when the heap cannot provide the
elements), the cursors start at 0, and the body throws when the requested capacity is 0. -/
def RingBuffer.construct [Inhabited T] (lim : VectorLimits) (capacity : Nat) :
    Except ConstructError (RingBuffer T) :=
  let capacity_ := next_power_of_two capacity
  let mask_ := (capacity_ + 2 ^ 64 - 1) % 2 ^ 64
  if lim.max_size < capacity_ then
    Except.error ConstructError.length_error
  else if lim.available < capacity_ then
    Except.error ConstructError.bad_alloc
  else
    let buffer_ : List T := List.replicate capacity_ default
    if capacity = 0 then
      Except.error ConstructError.invalid_argument
    else
      Except.ok
        { head_ := 0, tail_ := 0, capacity_ := capacity_, mask_ := mask_, buffer_ := buffer_ }

/-- `size_t capacity() const noexcept { return capacity_; }`. -/
def RingBuffer.capacity (rb : RingBuffer T) : Nat := rb.capacity_

/-- Modelled from the spec: the body of `size_approx()` is empty in `ring_buffer.hpp`.
Spec 4.5: returns `head - tail`, evaluated as the `size_t` expression over the two cursors;
whenever `tail ≤ head` and fewer than `2 ^ 64` slots are occupied this is the plain
difference. -/
def RingBuffer.size_approx (rb : RingBuffer T) : Nat :=
  (rb.head_ + 2 ^ 64 - rb.tail_) % 2 ^ 64

/-- Modelled from the spec: the body of `push(const T&)` is empty in `ring_buffer.hpp`.
Spec 4.3: read `tail` and `head`; if `head - tail == capacity - 1` the buffer is full and the
call returns `false` leaving the buffer unchanged; otherwise the value is copied into
`storage[head & mask]`, the incremented `head` is stored and the call returns `true`.
The cursors are the counters of spec 3: `head` counts the items ever pushed and only
increases. The comparison `head - tail == capacity - 1` is evaluated as the `size_t`
expression over the source's fields. `none` is an access outside the vector. -/
def RingBuffer.push (rb : RingBuffer T) (item : T) : Option (Bool × RingBuffer T) :=
  let tail := rb.tail_
  let head := rb.head_
  if (head + 2 ^ 64 - tail) % 2 ^ 64 = (rb.capacity_ + 2 ^ 64 - 1) % 2 ^ 64 then
    some (false, rb)
  else
    let slot := head &&& rb.mask_
    if slot < rb.buffer_.length then
      some (true, { rb with buffer_ := rb.buffer_.set slot item, head_ := head + 1 })
    else
      none

/-- Modelled from the spec: the body of `push(T&&)` is empty in `ring_buffer.hpp`.
Spec 4.3 gives the move overload the same behaviour as the copy overload, except that the
source value is consumed. The third component is the caller's source value after the call:
`some item` when it is intact (a full buffer consumes nothing), `none` when it was moved
into the slot. -/
def RingBuffer.push_move (rb : RingBuffer T) (item : T) :
    Option (Bool × RingBuffer T × Option T) :=
  let tail := rb.tail_
  let head := rb.head_
  if (head + 2 ^ 64 - tail) % 2 ^ 64 = (rb.capacity_ + 2 ^ 64 - 1) % 2 ^ 64 then
    some (false, rb, some item)
  else
    let slot := head &&& rb.mask_
    if slot < rb.buffer_.length then
      some (true, { rb with buffer_ := rb.buffer_.set slot item, head_ := head + 1 }, none)
    else
      none

/-- Modelled from the spec: the body of `pop(T&)` is empty in `ring_buffer.hpp`.
Spec 4.4: read `head` and `tail`; if `head == tail` the buffer is empty and the call returns
`false` with the output argument untouched; otherwise the value in `storage[tail & mask]` is
moved into the output argument, the incremented `tail` is stored and the call returns `true`.
`tail` is the counter of spec 3: it counts the items ever popped and only increases.
The second component is the output argument after the call. The vector element that was
moved from stays in place: it lies outside the occupied range and a push overwrites it
before any pop reads it again. `none` is an access outside the vector. -/
def RingBuffer.pop (rb : RingBuffer T) (item : T) : Option (Bool × T × RingBuffer T) :=
  let head := rb.head_
  let tail := rb.tail_
  if head = tail then
    some (false, item, rb)
  else
    let slot := tail &&& rb.mask_
    match rb.buffer_[slot]? with
    | none => none
    | some v => some (true, v, { rb with tail_ := tail + 1 })

/-! ## Single-threaded call sequences -/

/-- Calls `push` once per value, in order, and collects the returned booleans. -/
def pushAll (rb : RingBuffer T) : List T → Option (List Bool × RingBuffer T)
  | [] => some ([], rb)
  | v :: vs =>
    match rb.push v with
    | none => none
    | some (ok, rb1) =>
      match pushAll rb1 vs with
      | none => none
      | some (oks, rb2) => some (ok :: oks, rb2)

/-- Calls `pop` `k` times on one output variable (initially `out`) and collects, for each
call, the returned boolean and the output variable after the call. -/
def popN (rb : RingBuffer T) (out : T) : Nat → Option (List (Bool × T) × RingBuffer T)
  | 0 => some ([], rb)
  | k + 1 =>
    match rb.pop out with
    | none => none
    | some (ok, out1, rb1) =>
      match popN rb1 out1 k with
      | none => none
      | some (res, rb2) => some ((ok, out1) :: res, rb2)

/-- One call made by the single thread: a push of a value, or a pop into an output
variable holding `out`. -/
inductive Op (T : Type) where
  | push (item : T)
  | pop (out : T)
  deriving DecidableEq, Repr

/-- A buffer together with two bookkeeping counters: how many pushes and how many pops
have returned `true` so far. -/
structure Sim (T : Type) where
  rb : RingBuffer T
  pushed : Nat
  popped : Nat
  deriving DecidableEq, Repr

/-- Performs one call and updates the counters. -/
def Sim.exec (s : Sim T) : Op T → Option (Sim T)
  | Op.push item =>
    match s.rb.push item with
    | none => none
    | some (ok, rb1) => some { rb := rb1, pushed := s.pushed + ok.toNat, popped := s.popped }
  | Op.pop out =>
    match s.rb.pop out with
    | none => none
    | some (ok, _, rb1) => some { rb := rb1, pushed := s.pushed, popped := s.popped + ok.toNat }

/-- Performs a sequence of calls, first to last. -/
def Sim.run (s : Sim T) : List (Op T) → Option (Sim T)
  | [] => some s
  | op :: ops =>
    match s.exec op with
    | none => none
    | some s1 => s1.run ops

/-- The state right after construction, with both counters at 0. -/
def Sim.fresh (rb : RingBuffer T) : Sim T := { rb := rb, pushed := 0, popped := 0 }

/-! ## Invariant and abstraction -/

/-- Well-formed buffer: the capacity is `2 ^ n` with `n ≤ 63`, the mask is one less, the
vector has `capacity_` elements, `tail` does not exceed `head`, and at most
`capacity_ - 1` slots are occupied. -/
def RingBuffer.Inv (rb : RingBuffer T) : Prop :=
  ∃ n, n ≤ 63 ∧ rb.capacity_ = 2 ^ n ∧ rb.mask_ = 2 ^ n - 1 ∧ rb.buffer_.length = 2 ^ n ∧
    rb.tail_ ≤ rb.head_ ∧ rb.head_ - rb.tail_ ≤ 2 ^ n - 1

/-- The queue held by the buffer, oldest element first: the slots of cursor positions
`tail, tail + 1, ..., head - 1`. -/
def RingBuffer.contents [Inhabited T] (rb : RingBuffer T) : List T :=
  (List.range rb.size_approx).map
    (fun i => rb.buffer_.getD ((rb.tail_ + i) % rb.capacity_) default)

/-- Bookkeeping invariant of a call sequence: the buffer is well formed, no more pops than
pushes have succeeded, each cursor equals its counter, and the occupied count is the
difference of the counters. -/
def Sim.Good (s : Sim T) : Prop :=
  s.rb.Inv ∧ s.popped ≤ s.pushed ∧ s.rb.head_ = s.pushed ∧
    s.rb.tail_ = s.popped ∧ s.rb.size_approx = s.pushed - s.popped

/-- `TopBits n j y`: `y` has no bit at position `n` or above, and its `j` highest positions
below `n` are all set. -/
def TopBits (n j y : Nat) : Prop :=
  (∀ i, n ≤ i → y.testBit i = false) ∧ (∀ i, i < n → n ≤ i + j → y.testBit i = true)

/-! ## next_power_of_two -/

theorem TopBits.smear {n j y : Nat} (h : TopBits n j y) :
    TopBits n (2 * j) (y ||| (y >>> j)) := by
  obtain ⟨hhi, hlo⟩ := h
  refine ⟨fun i hi => ?_, fun i hi hij => ?_⟩
  · rw [Nat.testBit_or, Nat.testBit_shiftRight, hhi i hi, hhi (j + i) (by omega)]; rfl
  · rw [Nat.testBit_or, Nat.testBit_shiftRight]
    by_cases h1 : n ≤ i + j
    · rw [hlo i hi h1]; rfl
    · rw [hlo (j + i) (by omega) (by omega)]; simp

theorem TopBits.of_bounds {n y : Nat} (hlo : 2 ^ n ≤ y) (hhi : y < 2 ^ (n + 1)) :
    TopBits (n + 1) 1 y := by
  have hz : ∀ i, n + 1 ≤ i → y.testBit i = false := fun i hi =>
    Nat.testBit_lt_two_pow (lt_of_lt_of_le hhi (Nat.pow_le_pow_right (by decide) hi))
  refine ⟨hz, fun i hi hij => ?_⟩
  obtain ⟨k, hk, hkt⟩ := Nat.ge_two_pow_implies_high_bit_true hlo
  have hik : i = n := by omega
  have hkn : k = n := by
    by_contra hne
    have := hz k (by omega)
    simp [this] at hkt
  subst hik; subst hkn; exact hkt

theorem TopBits.eq_of_full {n j y : Nat} (h : TopBits n j y) (hj : n ≤ j) :
    y = 2 ^ n - 1 := by
  apply Nat.eq_of_testBit_eq
  intro i
  rw [Nat.testBit_two_pow_sub_one]
  by_cases hi : i < n
  · rw [h.2 i hi (by omega)]; simp [hi]
  · rw [h.1 i (by omega)]; simp [hi]

/-- The six smearing steps turn `y < 2 ^ 64` into `2 ^ (bit length of y) - 1`. -/
theorem smear_eq (y : Nat) (hy : y < 2 ^ 64) :
    (let x := y
     let x := x ||| (x >>> 1)
     let x := x ||| (x >>> 2)
     let x := x ||| (x >>> 4)
     let x := x ||| (x >>> 8)
     let x := x ||| (x >>> 16)
     let x := x ||| (x >>> 32)
     x) = 2 ^ y.size - 1 := by
  rcases Nat.eq_zero_or_pos y with rfl | hpos
  · simp
  · obtain ⟨n, hn⟩ : ∃ n, y.size = n + 1 :=
      ⟨y.size - 1, by have := Nat.size_pos.2 hpos; omega⟩
    have hlo : 2 ^ n ≤ y := Nat.lt_size.1 (by omega)
    have hhi : y < 2 ^ (n + 1) := hn ▸ Nat.lt_size_self y
    have hn64 : n + 1 ≤ 64 := hn ▸ Nat.size_le.2 hy
    have h1 := TopBits.of_bounds hlo hhi
    have h2 := h1.smear
    have h4 := h2.smear
    have h8 := h4.smear
    have h16 := h8.smear
    have h32 := h16.smear
    have h64 := h32.smear
    rw [hn]
    exact h64.eq_of_full (by omega)

/-- Closed form of the bit-smear: for `1 ≤ x < 2 ^ 64` the result is
`2 ^ (bit length of (x - 1))` reduced modulo `2 ^ 64`. -/
theorem next_power_of_two_eq (x : Nat) (h1 : 1 ≤ x) (h2 : x < 2 ^ 64) :
    next_power_of_two x = 2 ^ (x - 1).size % 2 ^ 64 := by
  have hs := smear_eq (x - 1) (by omega)
  have hpos : 0 < 2 ^ (x - 1).size := Nat.pos_pow_of_pos _ (by decide)
  simp only at hs
  unfold next_power_of_two
  rw [if_neg (by omega)]
  simp only
  rw [hs, Nat.sub_add_cancel hpos]

/-- On `1 ≤ x ≤ 2 ^ 63` the final increment does not wrap. -/
theorem next_power_of_two_eq_of_le (x : Nat) (h1 : 1 ≤ x) (h2 : x ≤ 2 ^ 63) :
    (x - 1).size ≤ 63 ∧ next_power_of_two x = 2 ^ (x - 1).size := by
  have hsz : (x - 1).size ≤ 63 := Nat.size_le.2 (by omega)
  refine ⟨hsz, ?_⟩
  rw [next_power_of_two_eq x h1 (by omega)]
  exact Nat.mod_eq_of_lt (Nat.pow_lt_pow_right (by decide) (by omega))

/-! ## Construction -/

theorem construct_of_ne_zero [Inhabited T] (lim : VectorLimits) (c : Nat) (hc : c ≠ 0)
    (hm : next_power_of_two c ≤ lim.max_size) (ha : next_power_of_two c ≤ lim.available) :
    (RingBuffer.construct lim c : Except ConstructError (RingBuffer T)) =
      Except.ok
        { head_ := 0, tail_ := 0, capacity_ := next_power_of_two c,
          mask_ := (next_power_of_two c + 2 ^ 64 - 1) % 2 ^ 64,
          buffer_ := List.replicate (next_power_of_two c) default } := by
  unfold RingBuffer.construct
  simp only
  rw [if_neg (by omega), if_neg (by omega), if_neg hc]

theorem construct_cases [Inhabited T] {lim : VectorLimits} (c : Nat) (rb : RingBuffer T)
    (h : RingBuffer.construct lim c = Except.ok rb) :
    c ≠ 0 ∧ rb.head_ = 0 ∧ rb.tail_ = 0 ∧ rb.capacity_ = next_power_of_two c ∧
      rb.mask_ = (next_power_of_two c + 2 ^ 64 - 1) % 2 ^ 64 ∧
      rb.buffer_ = List.replicate (next_power_of_two c) default := by
  unfold RingBuffer.construct at h
  simp only at h
  split at h
  · exact absurd h (by simp)
  · split at h
    · exact absurd h (by simp)
    · split at h
      · exact absurd h (by simp)
      · rename_i hc
        injection h with h
        subst h
        exact ⟨hc, rfl, rfl, rfl, rfl, rfl⟩

theorem construct_within_limits [Inhabited T] {lim : VectorLimits} (c : Nat)
    (rb : RingBuffer T) (h : RingBuffer.construct lim c = Except.ok rb) :
    next_power_of_two c ≤ lim.max_size ∧ next_power_of_two c ≤ lim.available := by
  unfold RingBuffer.construct at h
  simp only at h
  split at h
  · exact absurd h (by simp)
  · split at h
    · exact absurd h (by simp)
    · exact ⟨by omega, by omega⟩

theorem construct_inv [Inhabited T] {lim : VectorLimits} (c : Nat) (h1 : 1 ≤ c)
    (h2 : c ≤ 2 ^ 63) (rb : RingBuffer T) (h : RingBuffer.construct lim c = Except.ok rb) :
    rb.Inv ∧ rb.head_ = 0 ∧ rb.tail_ = 0 := by
  obtain ⟨-, hh, ht, hcap, hmask, hbuf⟩ := construct_cases c rb h
  obtain ⟨hsz, hp⟩ := next_power_of_two_eq_of_le c h1 h2
  have hpos : 0 < 2 ^ (c - 1).size := Nat.pos_pow_of_pos _ (by decide)
  have hle : 2 ^ (c - 1).size ≤ 2 ^ 63 := Nat.pow_le_pow_right (by decide) hsz
  refine ⟨⟨(c - 1).size, hsz, hcap.trans hp, ?_, ?_, ?_, ?_⟩, hh, ht⟩
  · rw [hmask, hp]; omega
  · rw [hbuf, hp]; simp
  · rw [hh, ht]
  · rw [hh, ht]; exact Nat.zero_le _

/-! ## push and pop on a well-formed buffer -/

theorem size_of_le (rb : RingBuffer T) (hle : rb.tail_ ≤ rb.head_)
    (hlt : rb.head_ - rb.tail_ < 2 ^ 64) : rb.size_approx = rb.head_ - rb.tail_ := by
  unfold RingBuffer.size_approx; omega

theorem size_of_inv (rb : RingBuffer T) (hinv : rb.Inv) :
    rb.size_approx = rb.head_ - rb.tail_ := by
  obtain ⟨n, hn, -, -, -, hle, hsz⟩ := hinv
  have hpos : 0 < 2 ^ n := Nat.pos_pow_of_pos _ (by decide)
  have hle63 : 2 ^ n ≤ 2 ^ 63 := Nat.pow_le_pow_right (by decide) hn
  exact size_of_le rb hle (by omega)

theorem slot_ne_of_lt (t i s n : Nat) (his : i < s) (hs : s < 2 ^ n) :
    (t + i) % 2 ^ n ≠ (t + s) % 2 ^ n := by
  intro h
  have h1 : i % 2 ^ n = s % 2 ^ n := Nat.ModEq.add_left_cancel' t h
  rw [Nat.mod_eq_of_lt hs, Nat.mod_eq_of_lt (by omega)] at h1
  omega

theorem push_full (rb : RingBuffer T) (v : T)
    (h : rb.size_approx = (rb.capacity_ + 2 ^ 64 - 1) % 2 ^ 64) :
    rb.push v = some (false, rb) := by
  unfold RingBuffer.size_approx at h
  simp only [RingBuffer.push, if_pos h]

theorem push_not_full [Inhabited T] (rb : RingBuffer T) (v : T) (hinv : rb.Inv)
    (h : rb.size_approx ≠ rb.capacity_ - 1) :
    ∃ rb1, rb.push v = some (true, rb1) ∧ rb1.Inv ∧ rb1.head_ = rb.head_ + 1 ∧
      rb1.tail_ = rb.tail_ ∧ rb1.capacity_ = rb.capacity_ ∧ rb1.mask_ = rb.mask_ ∧
      rb1.size_approx = rb.size_approx + 1 ∧ rb1.contents = rb.contents ++ [v] := by
  have hs := size_of_inv rb hinv
  obtain ⟨n, hn, hcap, hmask, hlen, hle, hsz⟩ := hinv
  have hpos : 0 < 2 ^ n := Nat.pos_pow_of_pos _ (by decide)
  have hle63 : 2 ^ n ≤ 2 ^ 63 := Nat.pow_le_pow_right (by decide) hn
  have hslot : rb.head_ &&& rb.mask_ = rb.head_ % 2 ^ n := by
    rw [hmask, Nat.and_pow_two_sub_one_eq_mod]
  have hslot_lt : rb.head_ % 2 ^ n < 2 ^ n := Nat.mod_lt _ hpos
  have hnot :
      ¬ ((rb.head_ + 2 ^ 64 - rb.tail_) % 2 ^ 64 = (rb.capacity_ + 2 ^ 64 - 1) % 2 ^ 64) := by
    rw [hcap] at h ⊢
    unfold RingBuffer.size_approx at h
    omega
  have hsize : (rb.head_ + 1 + 2 ^ 64 - rb.tail_) % 2 ^ 64 = rb.size_approx + 1 := by
    rw [hcap] at h
    rw [hs] at h ⊢
    omega
  refine ⟨{ rb with buffer_ := rb.buffer_.set (rb.head_ % 2 ^ n) v, head_ := rb.head_ + 1 },
    ?_, ?_, rfl, rfl, rfl, rfl, hsize, ?_⟩
  · simp only [RingBuffer.push, if_neg hnot, hslot, hlen, if_pos hslot_lt]
  · refine ⟨n, hn, hcap, hmask, by simpa using hlen, ?_, ?_⟩
    · show rb.tail_ ≤ rb.head_ + 1
      omega
    · show rb.head_ + 1 - rb.tail_ ≤ 2 ^ n - 1
      rw [hcap, hs] at h; omega
  · have hhead : rb.head_ = rb.tail_ + rb.size_approx := by rw [hs]; omega
    have hs_lt : rb.size_approx < 2 ^ n := by rw [hs]; omega
    unfold RingBuffer.contents
    show List.map _ (List.range ((rb.head_ + 1 + 2 ^ 64 - rb.tail_) % 2 ^ 64)) = _
    rw [hsize, List.range_succ, List.map_append]
    congr 1
    · apply List.map_congr_left
      intro i hi
      have hi : i < rb.size_approx := List.mem_range.1 hi
      have hne := slot_ne_of_lt rb.tail_ i rb.size_approx n hi hs_lt
      simp only [hcap, List.getD_eq_getElem?_getD]
      rw [List.getElem?_set_ne (by rw [← hhead] at hne; exact fun h => hne h.symm)]
    · simp only [List.map_cons, List.map_nil, hcap, List.getD_eq_getElem?_getD, ← hhead]
      rw [List.getElem?_set_self (by rw [hlen]; exact hslot_lt)]
      rfl

theorem pop_empty (rb : RingBuffer T) (out : T) (h : rb.head_ = rb.tail_) :
    rb.pop out = some (false, out, rb) := by
  simp only [RingBuffer.pop, if_pos h]

theorem pop_nonempty [Inhabited T] (rb : RingBuffer T) (out : T) (hinv : rb.Inv)
    (h : rb.head_ ≠ rb.tail_) :
    ∃ x rb1, rb.pop out = some (true, x, rb1) ∧ rb1.Inv ∧ rb1.head_ = rb.head_ ∧
      rb1.tail_ = rb.tail_ + 1 ∧ rb1.capacity_ = rb.capacity_ ∧
      rb1.mask_ = rb.mask_ ∧ rb1.buffer_ = rb.buffer_ ∧
      rb1.size_approx + 1 = rb.size_approx ∧ rb.contents = x :: rb1.contents := by
  have hs := size_of_inv rb hinv
  obtain ⟨n, hn, hcap, hmask, hlen, hle, hsz⟩ := hinv
  have hpos : 0 < 2 ^ n := Nat.pos_pow_of_pos _ (by decide)
  have hle63 : 2 ^ n ≤ 2 ^ 63 := Nat.pow_le_pow_right (by decide) hn
  have hslot : rb.tail_ &&& rb.mask_ = rb.tail_ % 2 ^ n := by
    rw [hmask, Nat.and_pow_two_sub_one_eq_mod]
  have hslot_lt : rb.tail_ % 2 ^ n < rb.buffer_.length := by
    rw [hlen]; exact Nat.mod_lt _ hpos
  have hsize : (rb.head_ + 2 ^ 64 - (rb.tail_ + 1)) % 2 ^ 64 + 1 = rb.size_approx := by
    rw [hs]; omega
  refine ⟨rb.buffer_[rb.tail_ % 2 ^ n], { rb with tail_ := rb.tail_ + 1 },
    ?_, ?_, rfl, rfl, rfl, rfl, rfl, hsize, ?_⟩
  · simp only [RingBuffer.pop, if_neg h, hslot, List.getElem?_eq_getElem hslot_lt]
  · refine ⟨n, hn, hcap, hmask, hlen, ?_, ?_⟩
    · show rb.tail_ + 1 ≤ rb.head_
      omega
    · show rb.head_ - (rb.tail_ + 1) ≤ 2 ^ n - 1
      omega
  · unfold RingBuffer.contents
    rw [← hsize, List.range_succ_eq_map, List.map_cons, List.map_map]
    congr 1
    · simp only [hcap, Nat.add_zero, List.getD_eq_getElem?_getD,
        List.getElem?_eq_getElem hslot_lt, Option.getD_some]
    · apply List.map_congr_left
      intro i _
      show rb.buffer_.getD ((rb.tail_ + (i + 1)) % rb.capacity_) default =
        rb.buffer_.getD ((rb.tail_ + 1 + i) % rb.capacity_) default
      congr 2
      omega

/-! ## Sequences of pushes and pops -/

theorem contents_length [Inhabited T] (rb : RingBuffer T) :
    rb.contents.length = rb.size_approx := by
  simp [RingBuffer.contents]

theorem size_eq_zero_iff (rb : RingBuffer T) (hinv : rb.Inv) :
    rb.size_approx = 0 ↔ rb.head_ = rb.tail_ := by
  rw [size_of_inv rb hinv]
  obtain ⟨n, -, -, -, -, hle, -⟩ := hinv
  omega

theorem pushAll_ok [Inhabited T] (vs : List T) :
    ∀ rb : RingBuffer T, rb.Inv → rb.size_approx + vs.length ≤ rb.capacity_ - 1 →
      ∃ rb1, pushAll rb vs = some (List.replicate vs.length true, rb1) ∧ rb1.Inv ∧
        rb1.capacity_ = rb.capacity_ ∧ rb1.size_approx = rb.size_approx + vs.length ∧
        rb1.contents = rb.contents ++ vs := by
  induction vs with
  | nil => intro rb hinv _; exact ⟨rb, rfl, hinv, rfl, rfl, by simp⟩
  | cons v vs ih =>
    intro rb hinv hlen
    simp only [List.length_cons] at hlen
    obtain ⟨rb1, hpush, hinv1, -, -, hcap1, -, hsz1, hc1⟩ :=
      push_not_full rb v hinv (by omega)
    obtain ⟨rb2, hall, hinv2, hcap2, hsz2, hc2⟩ := ih rb1 hinv1 (by rw [hsz1, hcap1]; omega)
    refine ⟨rb2, ?_, hinv2, hcap2.trans hcap1, ?_, ?_⟩
    · simp only [pushAll, hpush, hall, List.length_cons, List.replicate_succ]
    · rw [hsz2, hsz1, List.length_cons]; omega
    · rw [hc2, hc1, List.append_assoc]; rfl

theorem popN_ok [Inhabited T] (k : Nat) :
    ∀ (rb : RingBuffer T) (out : T), rb.Inv → k ≤ rb.size_approx →
      ∃ rb2, popN rb out k = some ((rb.contents.take k).map (fun v => (true, v)), rb2) ∧
        rb2.Inv ∧ rb2.capacity_ = rb.capacity_ ∧ rb2.size_approx + k = rb.size_approx ∧
        rb.contents = rb.contents.take k ++ rb2.contents := by
  induction k with
  | zero => intro rb out hinv _; exact ⟨rb, by simp [popN], hinv, rfl, rfl, by simp⟩
  | succ k ih =>
    intro rb out hinv hk
    have hne : rb.head_ ≠ rb.tail_ := fun h => by
      have := (size_eq_zero_iff rb hinv).2 h
      omega
    obtain ⟨x, rb1, hpop, hinv1, -, -, hcap1, -, -, hsz1, hc1⟩ := pop_nonempty rb out hinv hne
    obtain ⟨rb2, hrest, hinv2, hcap2, hsz2, hc2⟩ := ih rb1 x hinv1 (by omega)
    refine ⟨rb2, ?_, hinv2, hcap2.trans hcap1, by omega, ?_⟩
    · simp only [popN, hpop, hrest, hc1, List.take_succ_cons, List.map_cons]
    · rw [hc1, List.take_succ_cons, List.cons_append, ← hc2]

/-! ## Call sequences with counters -/

theorem exec_push_good [Inhabited T] (s : Sim T) (v : T) (hg : s.Good) :
    ∃ s1, s.exec (Op.push v) = some s1 ∧ s1.Good ∧ s1.rb.capacity_ = s.rb.capacity_ ∧
      s1.popped = s.popped ∧
      s1.pushed = s.pushed + (if s.rb.size_approx = s.rb.capacity_ - 1 then 0 else 1) := by
  obtain ⟨hinv, hle, hhead, htail, hsize⟩ := hg
  obtain ⟨n, hn, hcap, hmask, hlen, hth, hsz⟩ := id hinv
  have hpos : 0 < 2 ^ n := Nat.pos_pow_of_pos _ (by decide)
  have hle63 : 2 ^ n ≤ 2 ^ 63 := Nat.pow_le_pow_right (by decide) hn
  by_cases hfull : s.rb.size_approx = s.rb.capacity_ - 1
  · have hpush := push_full s.rb v (by rw [hfull, hcap]; omega)
    refine ⟨{ rb := s.rb, pushed := s.pushed + 0, popped := s.popped }, ?_, ?_, rfl, rfl, ?_⟩
    · simp only [Sim.exec, hpush]; rfl
    · exact ⟨hinv, hle, hhead, htail, hsize⟩
    · simp [hfull]
  · obtain ⟨rb1, hpush, hinv1, hhead1, htail1, hcap1, -, hsz1, -⟩ :=
      push_not_full s.rb v hinv hfull
    refine ⟨{ rb := rb1, pushed := s.pushed + 1, popped := s.popped }, ?_, ?_, hcap1, rfl, ?_⟩
    · simp only [Sim.exec, hpush]; rfl
    · refine ⟨hinv1, ?_, ?_, ?_, ?_⟩
      · show s.popped ≤ s.pushed + 1
        omega
      · show rb1.head_ = s.pushed + 1
        rw [hhead1, hhead]
      · show rb1.tail_ = s.popped
        rw [htail1, htail]
      · show rb1.size_approx = s.pushed + 1 - s.popped
        rw [hsz1, hsize]; omega
    · simp [hfull]

theorem exec_pop_good [Inhabited T] (s : Sim T) (out : T) (hg : s.Good) :
    ∃ s1, s.exec (Op.pop out) = some s1 ∧ s1.Good ∧ s1.rb.capacity_ = s.rb.capacity_ ∧
      s1.pushed = s.pushed ∧
      s1.popped = s.popped + (if s.rb.size_approx = 0 then 0 else 1) := by
  obtain ⟨hinv, hle, hhead, htail, hsize⟩ := hg
  by_cases hempty : s.rb.head_ = s.rb.tail_
  · have hpop := pop_empty s.rb out hempty
    have hz := (size_eq_zero_iff s.rb hinv).2 hempty
    refine ⟨{ rb := s.rb, pushed := s.pushed, popped := s.popped + 0 }, ?_, ?_, rfl, rfl, ?_⟩
    · simp only [Sim.exec, hpop]; rfl
    · exact ⟨hinv, hle, hhead, htail, hsize⟩
    · simp [hz]
  · obtain ⟨x, rb1, hpop, hinv1, hhead1, htail1, hcap1, -, -, hsz1, -⟩ :=
      pop_nonempty s.rb out hinv hempty
    have hnz : s.rb.size_approx ≠ 0 := fun h => hempty ((size_eq_zero_iff s.rb hinv).1 h)
    refine ⟨{ rb := rb1, pushed := s.pushed, popped := s.popped + 1 }, ?_, ?_, hcap1, rfl, ?_⟩
    · simp only [Sim.exec, hpop]; rfl
    · refine ⟨hinv1, ?_, ?_, ?_, ?_⟩
      · show s.popped + 1 ≤ s.pushed
        omega
      · show rb1.head_ = s.pushed
        rw [hhead1, hhead]
      · show rb1.tail_ = s.popped + 1
        rw [htail1, htail]
      · show rb1.size_approx = s.pushed - (s.popped + 1)
        omega
    · simp [hnz]

theorem exec_good [Inhabited T] (s : Sim T) (op : Op T) (hg : s.Good) :
    ∃ s1, s.exec op = some s1 ∧ s1.Good ∧ s1.rb.capacity_ = s.rb.capacity_ := by
  cases op with
  | push v =>
    obtain ⟨s1, h1, h2, h3, -⟩ := exec_push_good s v hg
    exact ⟨s1, h1, h2, h3⟩
  | pop out =>
    obtain ⟨s1, h1, h2, h3, -⟩ := exec_pop_good s out hg
    exact ⟨s1, h1, h2, h3⟩

theorem run_good [Inhabited T] (ops : List (Op T)) :
    ∀ s : Sim T, s.Good →
      ∃ s1, s.run ops = some s1 ∧ s1.Good ∧ s1.rb.capacity_ = s.rb.capacity_ := by
  induction ops with
  | nil => intro s hg; exact ⟨s, rfl, hg, rfl⟩
  | cons op ops ih =>
    intro s hg
    obtain ⟨s1, h1, hg1, hc1⟩ := exec_good s op hg
    obtain ⟨s2, h2, hg2, hc2⟩ := ih s1 hg1
    exact ⟨s2, by simp only [Sim.run, h1, h2], hg2, hc2.trans hc1⟩

/-! ## The degenerate buffer of a request above `2 ^ 63` -/

theorem next_power_of_two_of_gt (c : Nat) (h1 : 2 ^ 63 < c) (h2 : c < 2 ^ 64) :
    next_power_of_two c = 0 := by
  have hsz : (c - 1).size = 64 := by
    have hle : (c - 1).size ≤ 64 := Nat.size_le.2 (by omega)
    have hge : 63 < (c - 1).size := Nat.lt_size.2 (by omega)
    omega
  rw [next_power_of_two_eq c (by omega) h2, hsz, Nat.mod_self]

theorem run_degenerate (rb : RingBuffer T) (hh : rb.head_ = 0) (ht : rb.tail_ = 0)
    (hc : rb.capacity_ = 0) (hb : rb.buffer_ = []) (p q : Nat) (ops : List (Op T)) :
    ∀ s, (Sim.mk rb p q).run ops = some s → s = Sim.mk rb p q := by
  induction ops with
  | nil => intro s h; simp only [Sim.run] at h; injection h with h; exact h.symm
  | cons op ops ih =>
    intro s h
    cases op with
    | push v =>
      have hpush : rb.push v = none := by
        simp [RingBuffer.push, hh, ht, hc, hb]
      simp [Sim.run, Sim.exec, hpush] at h
    | pop out =>
      have hpop := pop_empty rb out (hh.trans ht.symm)
      simp only [Sim.run, Sim.exec, hpop] at h
      exact ih s h

theorem fresh_good [Inhabited T] {lim : VectorLimits} (c : Nat) (h1 : 1 ≤ c)
    (h2 : c ≤ 2 ^ 63) (rb : RingBuffer T) (h : RingBuffer.construct lim c = Except.ok rb) :
    (Sim.fresh rb).Good := by
  obtain ⟨hinv, hh, ht⟩ := construct_inv c h1 h2 rb h
  refine ⟨hinv, Nat.le_refl _, hh, ht, ?_⟩
  show rb.size_approx = 0 - 0
  simp [RingBuffer.size_approx, hh, ht]

theorem push_step (rb : RingBuffer T) (v : T) (ok : Bool) (rb1 : RingBuffer T)
    (h : rb.push v = some (ok, rb1)) :
    rb1.tail_ = rb.tail_ ∧ rb1.head_ = rb.head_ + ok.toNat ∧
      rb1.capacity_ = rb.capacity_ ∧ rb1.mask_ = rb.mask_ := by
  unfold RingBuffer.push at h
  simp only at h
  split at h
  · injection h with h; injection h with h1 h2
    subst h1; subst h2
    exact ⟨rfl, rfl, rfl, rfl⟩
  · split at h
    · injection h with h; injection h with h1 h2
      subst h1; subst h2
      exact ⟨rfl, rfl, rfl, rfl⟩
    · exact absurd h (by simp)

theorem pop_step (rb : RingBuffer T) (out : T) (ok : Bool) (x : T) (rb1 : RingBuffer T)
    (h : rb.pop out = some (ok, x, rb1)) :
    rb1.head_ = rb.head_ ∧ rb1.tail_ = rb.tail_ + ok.toNat ∧
      rb1.capacity_ = rb.capacity_ ∧ rb1.mask_ = rb.mask_ ∧ rb1.buffer_ = rb.buffer_ := by
  unfold RingBuffer.pop at h
  simp only at h
  split at h
  · injection h with h; injection h with h1 h2; injection h2 with h2 h3
    subst h1; subst h3
    exact ⟨rfl, rfl, rfl, rfl, rfl⟩
  · split at h
    · exact absurd h (by simp)
    · injection h with h; injection h with h1 h2; injection h2 with h2 h3
      subst h1; subst h3
      exact ⟨rfl, rfl, rfl, rfl, rfl⟩

theorem pushAll_overfull [Inhabited T] (vs : List T) :
    ∀ rb : RingBuffer T, rb.Inv → rb.size_approx + vs.length = rb.capacity_ →
      ∃ rb1, pushAll rb vs = some (List.replicate (vs.length - 1) true ++ [false], rb1) := by
  induction vs with
  | nil =>
    intro rb hinv hlen
    have hs := size_of_inv rb hinv
    obtain ⟨n, hn, hcap, hmask, hl, hle, hsz⟩ := hinv
    have hpos : 0 < 2 ^ n := Nat.pos_pow_of_pos _ (by decide)
    simp only [List.length_nil] at hlen
    omega
  | cons v vs ih =>
    intro rb hinv hlen
    have hs := size_of_inv rb hinv
    obtain ⟨n, hn, hcap, hmask, hl, hle, hsz⟩ := id hinv
    have hpos : 0 < 2 ^ n := Nat.pos_pow_of_pos _ (by decide)
    have hle63 : 2 ^ n ≤ 2 ^ 63 := Nat.pow_le_pow_right (by decide) hn
    simp only [List.length_cons] at hlen
    cases vs with
    | nil =>
      simp only [List.length_nil] at hlen
      have hpush := push_full rb v (by rw [hcap] at hlen ⊢; omega)
      exact ⟨rb, by simp [pushAll, hpush]⟩
    | cons w ws =>
      simp only [List.length_cons] at hlen
      obtain ⟨rb1, hpush, hinv1, -, -, hcap1, -, hsz1, -⟩ :=
        push_not_full rb v hinv (by omega)
      obtain ⟨rb2, hall⟩ := ih rb1 hinv1 (by simp only [List.length_cons]; omega)
      refine ⟨rb2, ?_⟩
      simp only [pushAll] at hall ⊢
      simp only [hpush, hall]
      simp [List.replicate_succ]

/-! ## Claims about `next_power_of_two` and construction -/

/-- Claim C1, as amended: for every `x ≤ 2 ^ 63`, `next_power_of_two x` is a power of two,
it is at least `x`, and no smaller power of two is at least `x`; in particular it maps
0 to 1, 1 to 1, 2 to 2, 3 to 4, 5 to 8, 1024 to 1024 and 1025 to 2048. -/
theorem next_power_of_two_smallest (x : Nat) (hx : x ≤ 2 ^ 63) :
    (next_power_of_two x).isPowerOfTwo ∧ x ≤ next_power_of_two x ∧
      (∀ p : Nat, p.isPowerOfTwo → x ≤ p → next_power_of_two x ≤ p) ∧
      next_power_of_two 0 = 1 ∧ next_power_of_two 1 = 1 ∧ next_power_of_two 2 = 2 ∧
      next_power_of_two 3 = 4 ∧ next_power_of_two 5 = 8 ∧
      next_power_of_two 1024 = 1024 ∧ next_power_of_two 1025 = 2048 := by
  refine ⟨?_, ?_, ?_, by decide, by decide, by decide, by decide, by decide, by decide,
    by decide⟩
  · rcases Nat.eq_zero_or_pos x with rfl | hpos
    · exact ⟨0, by decide⟩
    · exact ⟨(x - 1).size, (next_power_of_two_eq_of_le x hpos hx).2⟩
  · rcases Nat.eq_zero_or_pos x with rfl | hpos
    · exact Nat.zero_le _
    · rw [(next_power_of_two_eq_of_le x hpos hx).2]
      have := Nat.lt_size_self (x - 1)
      omega
  · rintro p ⟨j, rfl⟩ hxp
    rcases Nat.eq_zero_or_pos x with rfl | hpos
    · exact Nat.pos_pow_of_pos _ (by decide)
    · rw [(next_power_of_two_eq_of_le x hpos hx).2]
      exact Nat.pow_le_pow_right (by decide) (Nat.size_le.2 (by omega))

/-- Instance of `next_power_of_two_smallest` at `x = 1025`. -/
theorem next_power_of_two_smallest_witness :
    1025 ≤ 2 ^ 63 ∧ (next_power_of_two 1025).isPowerOfTwo ∧ 1025 ≤ next_power_of_two 1025 :=
  ⟨by decide, (next_power_of_two_smallest 1025 (by decide)).1,
    (next_power_of_two_smallest 1025 (by decide)).2.1⟩

/-- Claim C1 fails as stated: `2 ^ 63 + 1` is a `size_t` value, and there the final
increment wraps, so the result is 0, which is neither a power of two nor at least the
argument. -/
theorem next_power_of_two_wraps_above_two_pow_63 :
    2 ^ 63 + 1 < 2 ^ 64 ∧ next_power_of_two (2 ^ 63 + 1) = 0 ∧
      ¬ (next_power_of_two (2 ^ 63 + 1)).isPowerOfTwo ∧
      ¬ (2 ^ 63 + 1 ≤ next_power_of_two (2 ^ 63 + 1)) := by
  have h0 : next_power_of_two (2 ^ 63 + 1) = 0 := by decide
  refine ⟨by decide, h0, ?_, by rw [h0]; decide⟩
  rw [h0]
  rintro ⟨k, hk⟩
  have := Nat.pos_pow_of_pos k (show 0 < 2 by decide)
  omega

/-- Claim C2, as amended: the constructor throws the invalid-capacity error only when the
requested capacity `c` is 0, and for `c = 0` it never produces an object (it throws the
invalid-capacity error whenever the one-element vector can be created); for `c ≥ 1` it
succeeds exactly when the vector of `next_power_of_two c` elements can be created, that is
when `next_power_of_two c` exceeds neither `max_size()` nor what the heap can provide;
whenever it succeeds `capacity()` returns `next_power_of_two c`; and since `max_size()` is
below `2 ^ 63`, every request `2 ^ 62 < c ≤ 2 ^ 63` fails with `std::length_error`. -/
theorem construct_outcome (T : Type) [Inhabited T] (lim : VectorLimits) (c : Nat) :
    ((RingBuffer.construct lim c : Except ConstructError (RingBuffer T)) =
        Except.error ConstructError.invalid_argument → c = 0) ∧
      (c = 0 → (∀ rb : RingBuffer T, RingBuffer.construct lim c ≠ Except.ok rb) ∧
        (1 ≤ lim.max_size → 1 ≤ lim.available →
          (RingBuffer.construct lim c : Except ConstructError (RingBuffer T)) =
            Except.error ConstructError.invalid_argument)) ∧
      (1 ≤ c → ((∃ rb : RingBuffer T, RingBuffer.construct lim c = Except.ok rb) ↔
        next_power_of_two c ≤ lim.max_size ∧ next_power_of_two c ≤ lim.available)) ∧
      (∀ rb : RingBuffer T, RingBuffer.construct lim c = Except.ok rb →
        rb.capacity = next_power_of_two c) ∧
      (lim.max_size < 2 ^ 63 → 2 ^ 62 < c → c ≤ 2 ^ 63 →
        (RingBuffer.construct lim c : Except ConstructError (RingBuffer T)) =
          Except.error ConstructError.length_error) := by
  refine ⟨fun h => ?_, fun h0 => ⟨fun rb hrb => ?_, fun hm ha => ?_⟩,
    fun h1 => ⟨fun ⟨rb, hrb⟩ => ?_, fun ⟨hm, ha⟩ => ?_⟩, fun rb hrb => ?_,
    fun hms hlo hhi => ?_⟩
  · unfold RingBuffer.construct at h
    simp only at h
    split at h
    · exact absurd h (by simp)
    · split at h
      · exact absurd h (by simp)
      · split at h
        · assumption
        · exact absurd h (by simp)
  · exact (construct_cases c rb hrb).1 h0
  · subst h0
    have hnp : next_power_of_two 0 = 1 := by decide
    unfold RingBuffer.construct
    simp only
    rw [hnp, if_neg (by omega), if_neg (by omega)]
    rfl
  · exact construct_within_limits c rb hrb
  · exact ⟨_, construct_of_ne_zero lim c (by omega) hm ha⟩
  · exact (construct_cases c rb hrb).2.2.2.1
  · have hsz : (c - 1).size = 63 := by
      have hle : (c - 1).size ≤ 63 := Nat.size_le.2 (by omega)
      have hge : 62 < (c - 1).size := Nat.lt_size.2 (by omega)
      omega
    have hnp : next_power_of_two c = 2 ^ 63 := by
      rw [(next_power_of_two_eq_of_le c (by omega) hhi).2, hsz]
    unfold RingBuffer.construct
    simp only
    rw [hnp, if_pos hms]

/-- Instance of `construct_outcome` at `c = 5` for a buffer of naturals. -/
theorem construct_outcome_witness :
    ∃ rb : RingBuffer Nat, RingBuffer.construct demoLimits 5 = Except.ok rb ∧
      rb.capacity = 8 := by
  have key := construct_outcome Nat demoLimits 5
  obtain ⟨rb, hrb⟩ := (key.2.2.1 (by decide)).2 ⟨by decide, by decide⟩
  exact ⟨rb, hrb, (key.2.2.2.1 rb hrb).trans (by decide)⟩

/-- Claim C2 fails as stated: the request `c = 2 ^ 63` is at least 1, yet even with the
largest limits any implementation can have (`max_size()` and heap both `2 ^ 63 - 1`
elements) the vector of `2 ^ 63` elements cannot be created: the constructor throws
`std::length_error` and produces no object. -/
theorem construct_fails_at_two_pow_63 :
    1 ≤ 2 ^ 63 ∧ 2 ^ 63 < 2 ^ 64 ∧ next_power_of_two (2 ^ 63) = 2 ^ 63 ∧
      (RingBuffer.construct ⟨2 ^ 63 - 1, 2 ^ 63 - 1⟩ (2 ^ 63) :
        Except ConstructError (RingBuffer Nat)) =
          Except.error ConstructError.length_error :=
  ⟨by decide, by decide, by decide, by decide⟩

/-- Claim C8, as amended: for every requested capacity `1 ≤ c < 2 ^ 64` the constructed
buffer has `mask_ = capacity_ - 1` in `size_t` arithmetic, and when moreover `c ≤ 2 ^ 63`
the stored capacity is a power of two, is at least 1 (indeed at least `c`), and
`mask_ = capacity_ - 1` holds without wrap-around. -/
theorem capacity_power_of_two (T : Type) [Inhabited T] (lim : VectorLimits)
    (c : Nat) (hc : c < 2 ^ 64)
    (rb : RingBuffer T) (h : RingBuffer.construct lim c = Except.ok rb) :
    rb.mask_ = (rb.capacity_ + 2 ^ 64 - 1) % 2 ^ 64 ∧
      (c ≤ 2 ^ 63 → rb.capacity_.isPowerOfTwo ∧ 1 ≤ rb.capacity_ ∧ c ≤ rb.capacity_ ∧
        rb.mask_ = rb.capacity_ - 1) := by
  obtain ⟨hc0, -, -, hcap, hmask, -⟩ := construct_cases c rb h
  refine ⟨by rw [hmask, hcap], fun hle => ?_⟩
  obtain ⟨hsz, hp⟩ := next_power_of_two_eq_of_le c (by omega) hle
  have hpos : 0 < 2 ^ (c - 1).size := Nat.pos_pow_of_pos _ (by decide)
  have hle63 : 2 ^ (c - 1).size ≤ 2 ^ 63 := Nat.pow_le_pow_right (by decide) hsz
  have hlt := Nat.lt_size_self (c - 1)
  refine ⟨⟨(c - 1).size, hcap.trans hp⟩, ?_, ?_, ?_⟩
  · rw [hcap, hp]; exact hpos
  · rw [hcap, hp]; omega
  · rw [hmask, hcap, hp]; omega

/-- Instance of `capacity_power_of_two` at `c = 3` for a buffer of naturals. -/
theorem capacity_power_of_two_witness :
    ∃ rb : RingBuffer Nat, RingBuffer.construct demoLimits 3 = Except.ok rb ∧
      rb.capacity_.isPowerOfTwo ∧ 1 ≤ rb.capacity_ ∧ rb.mask_ = rb.capacity_ - 1 := by
  have h : (RingBuffer.construct demoLimits 3 : Except ConstructError (RingBuffer Nat)) =
      Except.ok ⟨0, 0, 4, 3, [0, 0, 0, 0]⟩ := by decide
  have key := (capacity_power_of_two Nat demoLimits 3 (by decide) _ h).2 (by decide)
  exact ⟨_, h, key.1, key.2.1, key.2.2.2⟩

/-- Claim C8 fails as stated: the request `c = 2 ^ 63 + 1` is a `size_t` value at least 1,
construction succeeds, and the stored capacity is 0, which is neither a power of two nor at
least 1. -/
theorem capacity_zero_above_two_pow_63 :
    2 ^ 63 + 1 < 2 ^ 64 ∧
      ∃ rb : RingBuffer Nat, RingBuffer.construct demoLimits (2 ^ 63 + 1) = Except.ok rb ∧
        rb.capacity_ = 0 ∧ ¬ rb.capacity_.isPowerOfTwo ∧ ¬ (1 ≤ rb.capacity_) := by
  refine ⟨by decide, ⟨0, 0, 0, 2 ^ 64 - 1, []⟩, by decide, rfl, ?_, by decide⟩
  rintro ⟨k, hk⟩
  have := Nat.pos_pow_of_pos k (show 0 < 2 by decide)
  simp only at hk
  omega

/-! ## Claims about push, pop and size_approx -/

/-- Claim C3: for every successfully constructed buffer (requested capacity `c`, a
`size_t`) and every list of values `v1..vk` with `k ≤ capacity() - 1`, pushing them in order
on the fresh buffer returns `true` every time, and `k` pops then return `true` every time
and deliver `v1..vk` in the same order. -/
theorem fifo_round_trip (T : Type) [Inhabited T] (lim : VectorLimits) (c : Nat) (hc : c < 2 ^ 64)
    (rb : RingBuffer T) (h : RingBuffer.construct lim c = Except.ok rb) (vs : List T)
    (hk : vs.length ≤ rb.capacity - 1) (out : T) :
    ∃ rb1 rb2, pushAll rb vs = some (List.replicate vs.length true, rb1) ∧
      popN rb1 out vs.length = some (vs.map (fun v => (true, v)), rb2) := by
  obtain ⟨hc0, hh, ht, hcap, -, -⟩ := construct_cases c rb h
  by_cases hle : c ≤ 2 ^ 63
  · obtain ⟨hinv, -, -⟩ := construct_inv c (by omega) hle rb h
    have hsz : rb.size_approx = 0 := by simp [RingBuffer.size_approx, hh, ht]
    have hnil : rb.contents = [] := List.length_eq_zero.1 ((contents_length rb).trans hsz)
    obtain ⟨rb1, hpush, hinv1, -, hsz1, hc1⟩ :=
      pushAll_ok vs rb hinv (by rw [hsz]; simpa [RingBuffer.capacity] using hk)
    rw [hnil, List.nil_append] at hc1
    obtain ⟨rb2, hpop, -, -, -, -⟩ := popN_ok vs.length rb1 out hinv1 (by omega)
    rw [hc1, List.take_length] at hpop
    exact ⟨rb1, rb2, hpush, hpop⟩
  · have hzero : rb.capacity = 0 :=
      hcap.trans (next_power_of_two_of_gt c (by omega) hc)
    have hvs : vs = [] := List.length_eq_zero.1 (by omega)
    subst hvs
    exact ⟨rb, rb, rfl, rfl⟩

/-- Instance of `fifo_round_trip`: requested capacity 3 (rounded to 4), values 10, 20, 30. -/
theorem fifo_round_trip_witness :
    ∃ rb rb1 rb2 : RingBuffer Nat, RingBuffer.construct demoLimits 3 = Except.ok rb ∧
      pushAll rb [10, 20, 30] = some ([true, true, true], rb1) ∧
      popN rb1 0 3 = some ([(true, 10), (true, 20), (true, 30)], rb2) := by
  have h : (RingBuffer.construct demoLimits 3 : Except ConstructError (RingBuffer Nat)) =
      Except.ok ⟨0, 0, 4, 3, [0, 0, 0, 0]⟩ := by decide
  obtain ⟨rb1, rb2, h1, h2⟩ :=
    fifo_round_trip Nat demoLimits 3 (by decide) _ h [10, 20, 30] (by decide) 0
  exact ⟨_, rb1, rb2, h, h1, h2⟩

/-- Claim C4, as amended: for every successfully constructed buffer, after exactly
`capacity() - 1` successful pushes and no pops (zero pushes when `capacity() = 1`), a further
push returns `false` and leaves head, tail and the stored elements unchanged; when
`capacity() ≥ 2`, a pop then returns `true`, the next push returns `true` and the push after
that returns `false`; when `capacity() = 1` the pop returns `false` and the next push
returns `false`. -/
theorem fullness_boundary (T : Type) [Inhabited T] (lim : VectorLimits) (c : Nat) (hc : c < 2 ^ 64)
    (rb : RingBuffer T) (h : RingBuffer.construct lim c = Except.ok rb) (vs : List T)
    (hk : vs.length + 1 = rb.capacity) (v w u out : T) :
    ∃ rb1, pushAll rb vs = some (List.replicate vs.length true, rb1) ∧
      rb1.push v = some (false, rb1) ∧
      (2 ≤ rb.capacity → ∃ x rb2 rb3, rb1.pop out = some (true, x, rb2) ∧
        rb2.push w = some (true, rb3) ∧ rb3.push u = some (false, rb3)) ∧
      (rb.capacity = 1 →
        rb1.pop out = some (false, out, rb1) ∧ rb1.push w = some (false, rb1)) := by
  obtain ⟨hc0, hh, ht, hcap, -, -⟩ := construct_cases c rb h
  have hle : c ≤ 2 ^ 63 := by
    by_contra hgt
    have hzero : rb.capacity = 0 := hcap.trans (next_power_of_two_of_gt c (by omega) hc)
    omega
  obtain ⟨hinv, -, -⟩ := construct_inv c (by omega) hle rb h
  have hsz : rb.size_approx = 0 := by simp [RingBuffer.size_approx, hh, ht]
  have hk1 : vs.length + 1 = rb.capacity_ := hk
  obtain ⟨rb1, hpush, hinv1, hcap1, hsz1, -⟩ := pushAll_ok vs rb hinv (by omega)
  obtain ⟨n, hn, hcapn, -, -, -, -⟩ := id hinv1
  have hle63 : 2 ^ n ≤ 2 ^ 63 := Nat.pow_le_pow_right (by decide) hn
  have hfull1 : rb1.size_approx = (rb1.capacity_ + 2 ^ 64 - 1) % 2 ^ 64 := by
    rw [hsz1, hsz, hcap1, ← hk1]; rw [hcap1, ← hk1] at hcapn; omega
  refine ⟨rb1, hpush, push_full rb1 v hfull1, fun h2 => ?_, fun h1 => ?_⟩
  · have h2c : 2 ≤ rb.capacity_ := h2
    have hne : rb1.head_ ≠ rb1.tail_ := fun he => by
      have := (size_eq_zero_iff rb1 hinv1).2 he
      omega
    obtain ⟨x, rb2, hpop, hinv2, -, -, hcap2, -, -, hsz2, -⟩ :=
      pop_nonempty rb1 out hinv1 hne
    obtain ⟨rb3, hpush3, -, -, -, hcap3, -, hsz3, -⟩ :=
      push_not_full rb2 w hinv2 (by omega)
    refine ⟨x, rb2, rb3, hpop, hpush3, push_full rb3 u ?_⟩
    rw [hcap3, hcap2]; rw [hcap1, ← hk1] at hcapn; omega
  · have h1c : rb.capacity_ = 1 := h1
    have he : rb1.head_ = rb1.tail_ := (size_eq_zero_iff rb1 hinv1).1 (by omega)
    exact ⟨pop_empty rb1 out he, push_full rb1 w hfull1⟩

/-- Instance of `fullness_boundary`: requested capacity 4, three pushes fill the buffer. -/
theorem fullness_boundary_witness :
    ∃ rb rb1 x rb2 rb3, (RingBuffer.construct demoLimits 4 : Except ConstructError (RingBuffer Nat)) =
        Except.ok rb ∧ pushAll rb [1, 2, 3] = some ([true, true, true], rb1) ∧
      rb1.push 4 = some (false, rb1) ∧ rb1.pop 0 = some (true, x, rb2) ∧
      rb2.push 5 = some (true, rb3) ∧ rb3.push 6 = some (false, rb3) := by
  have h : (RingBuffer.construct demoLimits 4 : Except ConstructError (RingBuffer Nat)) =
      Except.ok ⟨0, 0, 4, 3, [0, 0, 0, 0]⟩ := by decide
  obtain ⟨rb1, h1, h2, h3, -⟩ :=
    fullness_boundary Nat demoLimits 4 (by decide) _ h [1, 2, 3] (by decide) 4 5 6 0
  obtain ⟨x, rb2, rb3, h4, h5, h6⟩ := h3 (by decide)
  exact ⟨_, rb1, x, rb2, rb3, h, h1, h2, h4, h5, h6⟩

/-- Claim C4 fails as stated at requested capacity 1: `capacity()` is 1, after zero pushes a
push returns `false`, but then no item can be popped (pop returns `false`) and the next push
returns `false` instead of `true`. -/
theorem fullness_boundary_fails_at_capacity_one :
    ∃ rb : RingBuffer Nat, RingBuffer.construct demoLimits 1 = Except.ok rb ∧ rb.capacity = 1 ∧
      pushAll rb [] = some ([], rb) ∧ rb.push 7 = some (false, rb) ∧
      rb.pop 9 = some (false, 9, rb) ∧ rb.push 8 = some (false, rb) :=
  ⟨⟨0, 0, 1, 0, [0]⟩, by decide, by decide, by decide, by decide, by decide, by decide⟩

/-- Claim C5: on a freshly constructed buffer, and more generally whenever
`head == tail`, for every initial value of the output argument, pop returns `false`, leaves
the output argument equal to its initial value and leaves the buffer unchanged. -/
theorem pop_on_empty_untouched (T : Type) [Inhabited T] (rb : RingBuffer T) (out : T)
    (h : (∃ lim c, RingBuffer.construct lim c = Except.ok rb) ∨ rb.head_ = rb.tail_) :
    rb.pop out = some (false, out, rb) := by
  rcases h with ⟨lim, c, hc⟩ | h
  · obtain ⟨-, hh, ht, -⟩ := construct_cases c rb hc
    exact pop_empty rb out (hh.trans ht.symm)
  · exact pop_empty rb out h

/-- Instance of `pop_on_empty_untouched` on the buffer constructed with capacity 4. -/
theorem pop_on_empty_untouched_witness :
    ∃ rb : RingBuffer Nat, RingBuffer.construct demoLimits 4 = Except.ok rb ∧
      rb.pop 42 = some (false, 42, rb) := by
  have h : (RingBuffer.construct demoLimits 4 : Except ConstructError (RingBuffer Nat)) =
      Except.ok ⟨0, 0, 4, 3, [0, 0, 0, 0]⟩ := by decide
  exact ⟨_, h, pop_on_empty_untouched Nat _ 42 (Or.inl ⟨demoLimits, 4, h⟩)⟩

/-- Claim C7: for every buffer state and every value, push by copy and push by move return
the same boolean and produce the same resulting buffer state (head, tail, stored elements);
they differ only in the caller's source value, which the move overload consumes exactly when
the push succeeds. -/
theorem push_copy_move_agree (T : Type) (rb : RingBuffer T) (v : T) :
    (rb.push_move v).map (fun r => (r.1, r.2.1)) = rb.push v ∧
      (rb.push_move v).map (fun r => r.2.2) =
        (rb.push v).map (fun r => if r.1 = true then none else some v) := by
  unfold RingBuffer.push_move RingBuffer.push
  simp only
  split
  · exact ⟨rfl, rfl⟩
  · split
    · exact ⟨rfl, rfl⟩
    · exact ⟨rfl, rfl⟩

/-- Every state reached from a constructed buffer satisfies the bookkeeping invariant
(requests up to `2 ^ 63`) or is the untouched degenerate buffer of capacity 0. -/
theorem run_reachable [Inhabited T] {lim : VectorLimits} (c : Nat) (hc : c < 2 ^ 64)
    (rb0 : RingBuffer T) (h0 : RingBuffer.construct lim c = Except.ok rb0)
    (ops : List (Op T)) (s : Sim T)
    (hrun : (Sim.fresh rb0).run ops = some s) :
    s.rb.capacity_ = rb0.capacity_ ∧
      (s.Good ∨ (s.rb.head_ = 0 ∧ s.rb.tail_ = 0 ∧ s.pushed = 0 ∧ s.popped = 0 ∧
        s.rb.capacity_ = 0)) := by
  obtain ⟨hc0, hh, ht, hcap, -, hbuf⟩ := construct_cases c rb0 h0
  by_cases hle : c ≤ 2 ^ 63
  · obtain ⟨s1, h1, hg1, hc1⟩ :=
      run_good ops (Sim.fresh rb0) (fresh_good c (by omega) hle rb0 h0)
    rw [h1] at hrun
    injection hrun with hrun
    subst hrun
    exact ⟨hc1, Or.inl hg1⟩
  · have hz : rb0.capacity_ = 0 := hcap.trans (next_power_of_two_of_gt c (by omega) hc)
    have hb : rb0.buffer_ = [] := by rw [hbuf, ← hcap, hz]; rfl
    have := run_degenerate rb0 hh ht hz hb 0 0 ops s hrun
    subst this
    exact ⟨rfl, Or.inr ⟨hh, ht, rfl, rfl, hz⟩⟩

/-- Claim C6: in every state reachable from a successfully constructed buffer (requested
capacity `c`, a `size_t`) by a single-threaded sequence of push and pop calls,
`size_approx()` returns `head - tail` (in `size_t` arithmetic), this equals the number of
successful pushes minus the number of successful pops, and it lies in
`[0, capacity() - 1]`. For `c ≤ 2 ^ 63` every call sequence does reach a state. -/
theorem size_approx_exact (T : Type) [Inhabited T] (lim : VectorLimits) (c : Nat) (hc : c < 2 ^ 64)
    (rb0 : RingBuffer T) (h0 : RingBuffer.construct lim c = Except.ok rb0) (ops : List (Op T)) :
    (c ≤ 2 ^ 63 → ∃ s, (Sim.fresh rb0).run ops = some s) ∧
      ∀ s, (Sim.fresh rb0).run ops = some s →
        s.rb.size_approx = (s.rb.head_ + 2 ^ 64 - s.rb.tail_) % 2 ^ 64 ∧
        s.popped ≤ s.pushed ∧ s.rb.size_approx = s.pushed - s.popped ∧
        s.rb.size_approx ≤ s.rb.capacity - 1 ∧ s.rb.capacity = rb0.capacity := by
  refine ⟨fun hle => ?_, fun s hrun => ?_⟩
  · obtain ⟨hc0, -⟩ := construct_cases c rb0 h0
    obtain ⟨s1, h1, -, -⟩ :=
      run_good ops (Sim.fresh rb0) (fresh_good c (by omega) hle rb0 h0)
    exact ⟨s1, h1⟩
  · obtain ⟨hcap, hgood | ⟨hh, ht, hp, hq, hz⟩⟩ := run_reachable c hc rb0 h0 ops s hrun
    · have hs := size_of_inv s.rb hgood.1
      obtain ⟨⟨n, -, hcapn, -, -, -, hsz⟩, hle, -, -, hsize⟩ := hgood
      refine ⟨rfl, hle, hsize, ?_, hcap⟩
      show s.rb.size_approx ≤ s.rb.capacity_ - 1
      rw [hcapn, hs]; exact hsz
    · have hsz : s.rb.size_approx = 0 := by simp [RingBuffer.size_approx, hh, ht]
      refine ⟨rfl, by omega, by omega, by omega, hcap⟩

/-- Instance of `size_approx_exact`: capacity 4, calls push 1, push 2, pop. -/
theorem size_approx_exact_witness :
    ∃ rb0 s, (RingBuffer.construct demoLimits 4 : Except ConstructError (RingBuffer Nat)) =
        Except.ok rb0 ∧
      (Sim.fresh rb0).run [Op.push 1, Op.push 2, Op.pop 0] = some s ∧
      s.pushed = 2 ∧ s.popped = 1 ∧ s.rb.size_approx = s.pushed - s.popped ∧
      s.rb.size_approx ≤ s.rb.capacity - 1 := by
  have h : (RingBuffer.construct demoLimits 4 : Except ConstructError (RingBuffer Nat)) =
      Except.ok ⟨0, 0, 4, 3, [0, 0, 0, 0]⟩ := by decide
  have hrun : (Sim.fresh (⟨0, 0, 4, 3, [0, 0, 0, 0]⟩ : RingBuffer Nat)).run
      [Op.push 1, Op.push 2, Op.pop 0] = some ⟨⟨2, 1, 4, 3, [1, 2, 0, 0]⟩, 2, 1⟩ := by decide
  have key := (size_approx_exact Nat demoLimits 4 (by decide) _ h [Op.push 1, Op.push 2, Op.pop 0]).2
    _ hrun
  exact ⟨_, _, h, hrun, rfl, rfl, key.2.2.1, key.2.2.2.1⟩

/-- Claim C9: in every state reachable from a successfully constructed buffer by any
sequence of push and pop calls, `tail ≤ head` holds, never more items have been consumed
than produced (`head` is the number of successful pushes and `tail` the number of successful
pops), and each cursor never decreases: a push changes only `head` (by +1 on success, by 0
on failure) and a pop changes only `tail` (by +1 on success, by 0 on failure). For
`c ≤ 2 ^ 63` every call sequence does reach a state. -/
theorem cursors_ordered (T : Type) [Inhabited T] (lim : VectorLimits) (c : Nat) (hc : c < 2 ^ 64)
    (rb0 : RingBuffer T) (h0 : RingBuffer.construct lim c = Except.ok rb0) (ops : List (Op T)) :
    (c ≤ 2 ^ 63 → ∃ s, (Sim.fresh rb0).run ops = some s) ∧
      ∀ s, (Sim.fresh rb0).run ops = some s →
        s.rb.tail_ ≤ s.rb.head_ ∧ s.popped ≤ s.pushed ∧ s.rb.head_ = s.pushed ∧
        s.rb.tail_ = s.popped ∧
        (∀ v ok rb1, s.rb.push v = some (ok, rb1) →
          rb1.tail_ = s.rb.tail_ ∧ rb1.head_ = s.rb.head_ + ok.toNat ∧
          s.rb.head_ ≤ rb1.head_) ∧
        (∀ out ok x rb1, s.rb.pop out = some (ok, x, rb1) →
          rb1.head_ = s.rb.head_ ∧ rb1.tail_ = s.rb.tail_ + ok.toNat ∧
          s.rb.tail_ ≤ rb1.tail_) := by
  refine ⟨fun hle => ?_, fun s hrun => ?_⟩
  · obtain ⟨hc0, -⟩ := construct_cases c rb0 h0
    obtain ⟨s1, h1, -, -⟩ :=
      run_good ops (Sim.fresh rb0) (fresh_good c (by omega) hle rb0 h0)
    exact ⟨s1, h1⟩
  · have hfacts : s.popped ≤ s.pushed ∧ s.rb.head_ = s.pushed ∧ s.rb.tail_ = s.popped := by
      obtain ⟨-, hgood | ⟨hh, ht, hp, hq, -⟩⟩ := run_reachable c hc rb0 h0 ops s hrun
      · exact ⟨hgood.2.1, hgood.2.2.1, hgood.2.2.2.1⟩
      · rw [hh, ht, hp, hq]; exact ⟨Nat.le_refl _, rfl, rfl⟩
    obtain ⟨hle, hhead, htail⟩ := hfacts
    refine ⟨by omega, hle, hhead, htail, fun v ok rb1 hp => ?_, fun out ok x rb1 hp => ?_⟩
    · obtain ⟨h1, h2, -⟩ := push_step s.rb v ok rb1 hp
      exact ⟨h1, h2, by omega⟩
    · obtain ⟨h1, h2, -⟩ := pop_step s.rb out ok x rb1 hp
      exact ⟨h1, h2, by omega⟩

/-- Instance of `cursors_ordered`: capacity 4, calls push 1, push 2, pop. -/
theorem cursors_ordered_witness :
    ∃ rb0 s, (RingBuffer.construct demoLimits 4 : Except ConstructError (RingBuffer Nat)) =
        Except.ok rb0 ∧
      (Sim.fresh rb0).run [Op.push 1, Op.push 2, Op.pop 0] = some s ∧
      s.rb.head_ = 2 ∧ s.rb.tail_ = 1 ∧ s.rb.tail_ ≤ s.rb.head_ := by
  have h : (RingBuffer.construct demoLimits 4 : Except ConstructError (RingBuffer Nat)) =
      Except.ok ⟨0, 0, 4, 3, [0, 0, 0, 0]⟩ := by decide
  have hrun : (Sim.fresh (⟨0, 0, 4, 3, [0, 0, 0, 0]⟩ : RingBuffer Nat)).run
      [Op.push 1, Op.push 2, Op.pop 0] = some ⟨⟨2, 1, 4, 3, [1, 2, 0, 0]⟩, 2, 1⟩ := by decide
  have key := (cursors_ordered Nat demoLimits 4 (by decide) _ h
    [Op.push 1, Op.push 2, Op.pop 0]).2 _ hrun
  exact ⟨_, _, h, hrun, rfl, rfl, key.1⟩

/-- Claim C10, what the code does: on every buffer constructed with `1 ≤ c ≤ 2 ^ 63`, of
`capacity()` consecutive pushes on the fresh buffer the first `capacity() - 1` return `true`
and the last returns `false`, so `capacity()` is one more than the number of items that can
be stored. -/
theorem capacity_is_one_more_than_usable (T : Type) [Inhabited T] (lim : VectorLimits)
    (c : Nat) (h1 : 1 ≤ c)
    (h2 : c ≤ 2 ^ 63) (rb : RingBuffer T) (h : RingBuffer.construct lim c = Except.ok rb)
    (vs : List T) (hlen : vs.length = rb.capacity) :
    ∃ rb1, pushAll rb vs = some (List.replicate (rb.capacity - 1) true ++ [false], rb1) := by
  obtain ⟨hinv, hh, ht⟩ := construct_inv c h1 h2 rb h
  have hsz : rb.size_approx = 0 := by simp [RingBuffer.size_approx, hh, ht]
  have hlen1 : vs.length = rb.capacity_ := hlen
  obtain ⟨rb1, hall⟩ := pushAll_overfull vs rb hinv (by omega)
  exact ⟨rb1, by rw [hall, hlen]⟩

/-- Instance of `capacity_is_one_more_than_usable`: `capacity()` is 4 and the fourth
consecutive push is rejected. -/
theorem capacity_is_one_more_than_usable_witness :
    ∃ rb rb1 : RingBuffer Nat, RingBuffer.construct demoLimits 4 = Except.ok rb ∧ rb.capacity = 4 ∧
      pushAll rb [1, 2, 3, 4] = some ([true, true, true, false], rb1) := by
  have h : (RingBuffer.construct demoLimits 4 : Except ConstructError (RingBuffer Nat)) =
      Except.ok ⟨0, 0, 4, 3, [0, 0, 0, 0]⟩ := by decide
  obtain ⟨rb1, h1⟩ := capacity_is_one_more_than_usable Nat demoLimits 4 (by decide) (by decide) _ h
    [1, 2, 3, 4] (by decide)
  exact ⟨_, rb1, h, rfl, h1⟩

/-! ## Further claims about construction and `next_power_of_two` -/

theorem size_two_pow_sub_one (n : Nat) : (2 ^ n - 1).size = n := by
  have hpos : 0 < 2 ^ n := Nat.pos_pow_of_pos _ (by decide)
  apply Nat.le_antisymm
  · exact Nat.size_le.2 (by omega)
  · cases n with
    | zero => exact Nat.zero_le _
    | succ m =>
      have hm : 0 < 2 ^ m := Nat.pos_pow_of_pos _ (by decide)
      exact Nat.lt_size.2 (by rw [Nat.pow_succ]; omega)

theorem next_power_of_two_two_pow (k : Nat) (hk : k ≤ 63) :
    next_power_of_two (2 ^ k) = 2 ^ k := by
  have hpos : 0 < 2 ^ k := Nat.pos_pow_of_pos _ (by decide)
  have hle : 2 ^ k ≤ 2 ^ 63 := Nat.pow_le_pow_right (by decide) hk
  rw [(next_power_of_two_eq_of_le (2 ^ k) hpos hle).2, size_two_pow_sub_one]

/-- Claim C12: for every requested capacity `c ≥ 1`, the state produced by successful
construction has `head == 0` and `tail == 0` (the buffer is empty, `size_approx()` is 0),
`mask == next_power_of_two(c) - 1` as computed in `size_t` arithmetic (for `c ≤ 2 ^ 63` the
subtraction does not wrap), and a storage vector of length exactly
`next_power_of_two(c)`. Construction does succeed whenever the vector can be created. -/
theorem construct_state (T : Type) [Inhabited T] (lim : VectorLimits) (c : Nat)
    (h1 : 1 ≤ c) :
    (next_power_of_two c ≤ lim.max_size → next_power_of_two c ≤ lim.available →
        ∃ rb : RingBuffer T, RingBuffer.construct lim c = Except.ok rb) ∧
      ∀ rb : RingBuffer T, RingBuffer.construct lim c = Except.ok rb →
        rb.head_ = 0 ∧ rb.tail_ = 0 ∧ rb.head_ = rb.tail_ ∧ rb.size_approx = 0 ∧
        rb.mask_ = (next_power_of_two c + 2 ^ 64 - 1) % 2 ^ 64 ∧
        (c ≤ 2 ^ 63 → rb.mask_ = next_power_of_two c - 1) ∧
        rb.buffer_.length = next_power_of_two c := by
  refine ⟨fun hm ha => ⟨_, construct_of_ne_zero lim c (by omega) hm ha⟩, fun rb hrb => ?_⟩
  obtain ⟨-, hh, ht, -, hmask, hbuf⟩ := construct_cases c rb hrb
  refine ⟨hh, ht, hh.trans ht.symm, by simp [RingBuffer.size_approx, hh, ht], hmask,
    fun hle => ?_, by rw [hbuf]; simp⟩
  obtain ⟨hsz, hp⟩ := next_power_of_two_eq_of_le c h1 hle
  have hpos : 0 < 2 ^ (c - 1).size := Nat.pos_pow_of_pos _ (by decide)
  have hle63 : 2 ^ (c - 1).size ≤ 2 ^ 63 := Nat.pow_le_pow_right (by decide) hsz
  rw [hmask, hp]; omega

/-- Instance of `construct_state` at `c = 5` for a buffer of naturals. -/
theorem construct_state_witness :
    ∃ rb : RingBuffer Nat, RingBuffer.construct demoLimits 5 = Except.ok rb ∧
      rb.head_ = 0 ∧ rb.tail_ = 0 ∧ rb.mask_ = 7 ∧ rb.buffer_.length = 8 := by
  have key := construct_state Nat demoLimits 5 (by decide)
  obtain ⟨rb, hrb⟩ := key.1 (by decide) (by decide)
  obtain ⟨hh, ht, -, -, -, hm, hl⟩ := key.2 rb hrb
  exact ⟨rb, hrb, hh, ht, (hm (by decide)).trans (by decide), hl.trans (by decide)⟩

/-- Claim C13, as amended: for every buffer constructed with a requested capacity
`1 ≤ c ≤ 2 ^ 63` and every cursor value `i` (64-bit or not), the masked index `i & mask` is
a valid slot index, that is `(i & mask) < capacity`, where `capacity` is the storage length, and it
equals `i mod capacity`. -/
theorem masked_index_valid (T : Type) [Inhabited T] (lim : VectorLimits)
    (c : Nat) (h1 : 1 ≤ c) (h2 : c ≤ 2 ^ 63)
    (rb : RingBuffer T) (h : RingBuffer.construct lim c = Except.ok rb) (i : Nat) :
    i &&& rb.mask_ < rb.capacity ∧ rb.buffer_.length = rb.capacity ∧
      i &&& rb.mask_ = i % rb.capacity := by
  obtain ⟨⟨n, -, hcap, hmask, hlen, -, -⟩, -, -⟩ := construct_inv c h1 h2 rb h
  have hpos : 0 < 2 ^ n := Nat.pos_pow_of_pos _ (by decide)
  have hslot : i &&& rb.mask_ = i % 2 ^ n := by
    rw [hmask, Nat.and_pow_two_sub_one_eq_mod]
  refine ⟨?_, hlen.trans hcap.symm, ?_⟩
  · show i &&& rb.mask_ < rb.capacity_
    rw [hslot, hcap]; exact Nat.mod_lt _ hpos
  · show i &&& rb.mask_ = i % rb.capacity_
    rw [hslot, hcap]

/-- Instance of `masked_index_valid`: requested capacity 3 (rounded to 4), cursor 13. -/
theorem masked_index_valid_witness :
    ∃ rb : RingBuffer Nat, RingBuffer.construct demoLimits 3 = Except.ok rb ∧
      13 &&& rb.mask_ < rb.capacity ∧ 13 &&& rb.mask_ = 13 % rb.capacity := by
  have h : (RingBuffer.construct demoLimits 3 : Except ConstructError (RingBuffer Nat)) =
      Except.ok ⟨0, 0, 4, 3, [0, 0, 0, 0]⟩ := by decide
  have key := masked_index_valid Nat demoLimits 3 (by decide) (by decide) _ h 13
  exact ⟨_, h, key.1, key.2.2⟩

/-- Claim C13 fails as stated: the request `c = 2 ^ 63 + 1` constructs a buffer with
capacity 0, mask `2 ^ 64 - 1` and an empty storage vector, so the masked index of cursor 5
is 5, which is not below the capacity and is not a slot of the storage. -/
theorem masked_index_invalid_above_two_pow_63 :
    2 ^ 63 + 1 < 2 ^ 64 ∧
      ∃ rb : RingBuffer Nat, RingBuffer.construct demoLimits (2 ^ 63 + 1) = Except.ok rb ∧
        rb.capacity = 0 ∧ rb.buffer_.length = 0 ∧ 5 &&& rb.mask_ = 5 ∧
        ¬ (5 &&& rb.mask_ < rb.capacity) :=
  ⟨by decide, ⟨0, 0, 0, 2 ^ 64 - 1, []⟩, by decide, rfl, rfl, by decide, by decide⟩

/-- Claim C14: for every 64-bit `x ≥ 1`, `next_power_of_two x` equals
`2 ^ (bit length of (x - 1))` reduced modulo `2 ^ 64`, where the bit length `n` of `x - 1`
is 0 for 0 and otherwise satisfies `2 ^ (n - 1) ≤ x - 1 < 2 ^ n`; consequently for every
`x` with `2 ^ 63 < x ≤ 2 ^ 64 - 1` the final increment wraps and the result is 0. -/
theorem next_power_of_two_closed_form (x : Nat) (h1 : 1 ≤ x) (h2 : x < 2 ^ 64) :
    next_power_of_two x = 2 ^ (x - 1).size % 2 ^ 64 ∧ Nat.size 0 = 0 ∧
      x - 1 < 2 ^ (x - 1).size ∧ (x - 1 ≠ 0 → 2 ^ ((x - 1).size - 1) ≤ x - 1) ∧
      (2 ^ 63 < x → (x - 1).size = 64 ∧ next_power_of_two x = 0) := by
  refine ⟨next_power_of_two_eq x h1 h2, Nat.size_zero, Nat.lt_size_self _, fun hne => ?_,
    fun hgt => ⟨?_, next_power_of_two_of_gt x hgt h2⟩⟩
  · have hpos : 0 < (x - 1).size := Nat.size_pos.2 (Nat.pos_of_ne_zero hne)
    exact Nat.lt_size.1 (by omega)
  · have hle : (x - 1).size ≤ 64 := Nat.size_le.2 (by omega)
    have hge : 63 < (x - 1).size := Nat.lt_size.2 (by omega)
    omega

/-- Instance of `next_power_of_two_closed_form` at the largest 64-bit value. -/
theorem next_power_of_two_closed_form_witness :
    1 ≤ 2 ^ 64 - 1 ∧ 2 ^ 64 - 1 < 2 ^ 64 ∧ next_power_of_two (2 ^ 64 - 1) = 0 :=
  ⟨by decide, by decide,
    ((next_power_of_two_closed_form (2 ^ 64 - 1) (by decide) (by decide)).2.2.2.2
      (by decide)).2⟩

/-- Claim C15: `next_power_of_two` is idempotent on the representable range: for every
`x ≤ 2 ^ 63`, `next_power_of_two (next_power_of_two x) = next_power_of_two x`; and every
power of two `2 ^ k` with `k ≤ 63` is a fixed point. -/
theorem next_power_of_two_idempotent (x k : Nat) (hx : x ≤ 2 ^ 63) (hk : k ≤ 63) :
    next_power_of_two (next_power_of_two x) = next_power_of_two x ∧
      next_power_of_two (2 ^ k) = 2 ^ k := by
  refine ⟨?_, next_power_of_two_two_pow k hk⟩
  rcases Nat.eq_zero_or_pos x with rfl | hpos
  · decide
  · obtain ⟨hsz, hp⟩ := next_power_of_two_eq_of_le x hpos hx
    rw [hp]
    exact next_power_of_two_two_pow _ hsz

/-- Instance of `next_power_of_two_idempotent` at `x = 1025` and `k = 63`. -/
theorem next_power_of_two_idempotent_witness :
    next_power_of_two (next_power_of_two 1025) = next_power_of_two 1025 ∧
      next_power_of_two (2 ^ 63) = 2 ^ 63 :=
  next_power_of_two_idempotent 1025 63 (by decide) (by decide)

/-- Claim C16: `next_power_of_two` is monotone on the representable range: for all
`x ≤ y ≤ 2 ^ 63`, `next_power_of_two x ≤ next_power_of_two y`. -/
theorem next_power_of_two_monotone (x y : Nat) (hxy : x ≤ y) (hy : y ≤ 2 ^ 63) :
    next_power_of_two x ≤ next_power_of_two y := by
  rcases Nat.eq_zero_or_pos y with rfl | hypos
  · have hx0 : x = 0 := by omega
    subst hx0
    exact Nat.le_refl _
  · obtain ⟨-, hpy⟩ := next_power_of_two_eq_of_le y hypos hy
    rw [hpy]
    rcases Nat.eq_zero_or_pos x with rfl | hxpos
    · show 1 ≤ 2 ^ (y - 1).size
      exact Nat.pos_pow_of_pos _ (by decide)
    · obtain ⟨-, hpx⟩ := next_power_of_two_eq_of_le x hxpos (by omega)
      rw [hpx]
      exact Nat.pow_le_pow_right (by decide) (Nat.size_le_size (by omega))

/-- Instance of `next_power_of_two_monotone` at `x = 5`, `y = 1025`. -/
theorem next_power_of_two_monotone_witness :
    5 ≤ 1025 ∧ 1025 ≤ 2 ^ 63 ∧ next_power_of_two 5 ≤ next_power_of_two 1025 :=
  ⟨by decide, by decide, next_power_of_two_monotone 5 1025 (by decide) (by decide)⟩

end lfrb
